import Mathlib

/-!
# mylearncpp: a verification development

Shallow embedding of several exercises of the repository and of the
`minitest` helper, with the properties proved about them.

Conventions of the embedding.

* A C++ `int` is a Lean `Int` together with the range `INT_MIN .. INT_MAX`
  of a 32-bit two's complement integer.  Signed overflow is undefined
  behaviour in C++: every arithmetic step goes through `Cpp.checked`, and a
  function whose evaluation overflows has the result `none`.
* `/` and `%` on `int` truncate towards zero: `Int.tdiv` and `Int.tmod`.
* Loops are recursive functions with a fuel argument chosen by the caller
  large enough for the loop to finish; fuel running out is `none` as well.
* Static local variables and object fields are passed explicitly as state.
* Output streams are lists of the lines written to them.

Part 1 holds the definitions, Part 2 the lemmas and theorems.
-/

/-! ## Part 1: definitions -/

namespace Cpp

/-- Smallest value of a 32-bit `int`. -/
def INT_MIN : Int := -2147483648

/-- Largest value of a 32-bit `int`. -/
def INT_MAX : Int := 2147483647

/-- The value `v` is representable as an `int`. -/
def inInt (v : Int) : Prop := INT_MIN ≤ v ∧ v ≤ INT_MAX

instance (v : Int) : Decidable (inInt v) := by
  unfold inInt; exact inferInstance

/-- Result of an `int` computation whose mathematical value is `v`:
`some v` when representable, `none` (undefined behaviour) otherwise. -/
def checked (v : Int) : Option Int :=
  if inInt v then some v else none

end Cpp

/-! ### C08-Control-Flow/exercises/sx-questions/question2/main.cpp -/

namespace PrimeCheck

open Cpp

/-- The loop `for (int i {2}; i * i < x; i += 2) { if (x % i == 0) return false; }`
followed by `return true;`, started at the current value of `i`. -/
def isPrimeLoop (x : Int) : Nat → Int → Option Bool
  | 0, _ => none
  | fuel + 1, i =>
    match checked (i * i) with
    | none => none
    | some sq =>
      if sq < x then
        if Int.tmod x i = 0 then some false
        else
          match checked (i + 2) with
          | none => none
          | some j => isPrimeLoop x fuel j
      else some true

/-- The function `bool isPrime(int x)`. -/
def isPrime (x : Int) : Option Bool :=
  if x < 2 then some false
  else if x = 2 then some true
  else if Int.tmod x 2 = 0 then some false
  else isPrimeLoop x x.toNat 2

/-- The arguments of the `assert`s of `main` together with the value each
assertion requires of `isPrime`. -/
def mainAsserts : List (Int × Bool) :=
  [(0, false), (1, false), (2, true), (3, true), (4, false), (5, true),
   (7, true), (9, false), (11, true), (13, true), (15, false), (16, false),
   (17, true), (19, true), (97, true), (99, false), (13417, true)]

end PrimeCheck

/-! ### C11-Function-Overloading-and-Templates/exercises/s09-non-type-template-param-factorial/main.cpp -/

namespace Factorial

open Cpp

/-- The loop `for (int i { 2 }; i <= N; ++i) { prod *= i; }` followed by
`return prod;`, started at the current values of `i` and `prod`. -/
def factorialLoop (N : Int) : Nat → Int → Int → Option Int
  | 0, _, _ => none
  | fuel + 1, i, prod =>
    if i ≤ N then
      match checked (prod * i) with
      | none => none
      | some p =>
        match checked (i + 1) with
        | none => none
        | some j => factorialLoop N fuel j p
    else some prod

/-- The function template `template <int N> constexpr int factorial()`.
The `static_assert(N >= 0, ...)` rejects a negative `N` at compile time:
no value. -/
def factorial (N : Int) : Option Int :=
  if N ≥ 0 then factorialLoop N (N.toNat + 1) 2 1 else none

end Factorial

/-! ### C12-Compound-Types-Ref-and-Pointers/exercises/sx-questions/question5/main.cpp -/

namespace Sort2

/-- The function `void sort2(int& x, int& y)`: the pair is the values of the
two referenced variables before, the result their values after the call. -/
def sort2 (xy : Int × Int) : Int × Int :=
  if xy.1 > xy.2 then (xy.2, xy.1) else xy

end Sort2

/-! ### C07-Scope-Duration-Linkage/exercises/sx-questions/question3/main.cpp -/

namespace Accumulate

open Cpp

/-- Initial value of the static local `acc` (`static int acc {};`). -/
def accInit : Int := 0

/-- The function `int accumulate(int x)`, with the static local `acc` passed
in; the result is the returned value and the new value of `acc`. -/
def accumulate (acc x : Int) : Option (Int × Int) :=
  match checked (acc + x) with
  | none => none
  | some a => some (a, a)

/-- The values returned by the successive calls `accumulate(x1)`, ...,
`accumulate(xn)` when `acc` holds `acc` before the first of them. -/
def callsFrom : Int → List Int → Option (List Int)
  | _, [] => some []
  | acc, x :: xs =>
    match accumulate acc x with
    | none => none
    | some (r, acc1) =>
      match callsFrom acc1 xs with
      | none => none
      | some rs => some (r :: rs)

/-- The values returned by a program's calls to `accumulate`, in order,
from program start. -/
def calls (xs : List Int) : Option (List Int) := callsFrom accInit xs

/-- The running totals of the claim, from its words: the n-th entry is
`x1 + ... + xn`, the sum of the first n arguments, over the integers. -/
def runningTotals (xs : List Int) : List Int :=
  (List.range xs.length).map fun k => (xs.take (k + 1)).sum

end Accumulate

/-! ### C08-Control-Flow/exercises/s06-calculate/main.cpp -/

namespace Calculate

open Cpp

/-- The function `int calculate(int a, int b, char op)`: the returned value
and the lines written to `std::cerr`.  `a % b` with `b == 0`, and `a / b`
or `a % b` with a quotient outside `int`, are undefined behaviour. -/
def calculate (a b : Int) (op : Char) : Option (Int × List String) :=
  if op = '+' then (checked (a + b)).map fun r => (r, [])
  else if op = '-' then (checked (a - b)).map fun r => (r, [])
  else if op = '*' then (checked (a * b)).map fun r => (r, [])
  else if op = '/' then
    if b ≠ 0 then (checked (Int.tdiv a b)).map fun r => (r, [])
    else some (0, ["Error: Division by zero!"])
  else if op = '%' then
    if b = 0 then none
    else (checked (Int.tdiv a b)).map fun _ => (Int.tmod a b, [])
  else some (0, ["Error: Unknown operator!"])

end Calculate

/-! ### C17-Fixed-Size-Arrays/exercises/sx-questions/question2/step3/main.cpp -/

namespace Potion

/-- The enumeration `Potion::Type`, the count `n_potions` included. -/
inductive Kind
  | healing
  | mana
  | speed
  | invisibility
  | n_potions
  deriving DecidableEq, Repr

/-- The value of an enumerator, as used for indexing. -/
def Kind.toNat : Kind → Nat
  | healing => 0
  | mana => 1
  | speed => 2
  | invisibility => 3
  | n_potions => 4

/-- The array `Potion::types`. -/
def types : List Kind := [Kind.healing, Kind.mana, Kind.speed, Kind.invisibility]

/-- The array `Potion::costs`. -/
def costs : List Int := [20, 30, 12, 50]

/-- The array `Potion::names`. -/
def names : List String := ["healing", "mana", "speed", "invisibility"]

end Potion

/-- The class `Player`; `m_inventory` is the `std::array<int, Potion::n_potions>`. -/
structure Player where
  m_name : String
  m_inventory : List Int
  m_gold : Int
  deriving DecidableEq, Repr

namespace Player

open Cpp

/-- The constructor `Player(std::string_view name)`: the inventory is
value-initialised to zeros.  `Random.h` is not part of the sources; the
result `gold` of `Random::get<int>(80, 120)` is a parameter. -/
def new (name : String) (gold : Int) : Player :=
  { m_name := name, m_inventory := List.replicate 4 0, m_gold := gold }

/-- The member `get_inventory`; indexing outside the array is undefined. -/
def get_inventory (p : Player) (potion_type : Potion.Kind) : Option Int :=
  p.m_inventory[potion_type.toNat]?

/-- The member `get_gold`. -/
def get_gold (p : Player) : Int := p.m_gold

/-- The member `bool buy(Potion::Type type)`: the returned value and the
object afterwards.  Indexing `Potion::costs` or `m_inventory` outside the
array is undefined, as is signed overflow. -/
def buy (p : Player) (type : Potion.Kind) : Option (Bool × Player) :=
  match Potion.costs[type.toNat]? with
  | none => none
  | some cost =>
    if p.m_gold < cost then some (false, p)
    else
      match p.m_inventory[type.toNat]? with
      | none => none
      | some n =>
        match checked (n + 1) with
        | none => none
        | some n1 =>
          match checked (p.m_gold - cost) with
          | none => none
          | some g =>
            some (true, { p with m_inventory := p.m_inventory.set type.toNat n1, m_gold := g })

/-- The `Player` objects a program can hold: built by the constructor, with
the gold that `Random::get<int>(80, 120)` can return, and then changed by
`buy` only (the fields are private). -/
inductive Reachable : Player → Prop
  | construct (name : String) (gold : Int) :
      80 ≤ gold → gold ≤ 120 → Reachable (Player.new name gold)
  | bought (p q : Player) (type : Potion.Kind) (b : Bool) :
      Reachable p → p.buy type = some (b, q) → Reachable q

end Player

/-! ### external/minitest/minitest.hpp -/

namespace mtest

open Cpp

/-- How a call `f()` of a registered callback ends. -/
inductive Outcome
  | returned
  | threwException (what : String)
  | threwOther
  deriving DecidableEq, Repr

/-- Whether the call ended by a throw, of a `std::exception` or of anything
else. -/
def Outcome.threw : Outcome → Bool
  | returned => false
  | threwException _ => true
  | threwOther => true

/-- A `std::function<void()>`: it acts on the state `σ` of the program and
either returns or throws; what it did to the state before a throw stays. -/
abbrev Callback (σ : Type) := σ → Outcome × σ

/-- The constructor `reg(std::function<void()> f)`: `registry().push_back(f)`.
The function-local static vector `registry()` is passed in and returned; it
starts empty. -/
def reg {σ : Type} (registry : List (Callback σ)) (f : Callback σ) : List (Callback σ) :=
  registry ++ [f]

/-- The state of the loop of `run`: the program state, the counter `failed`,
the lines written to `std::cerr`, and the record of the calls made so far
(position in the registry and how the call ended). -/
structure LoopState (σ : Type) where
  world : σ
  failed : Int
  cerr : List String
  invoked : List (Nat × Outcome)

/-- The loop `for (auto& f: registry()) { try { f(); } catch ... }` of `run`
over the callbacks that are left, the first of them at position `idx`. -/
def runLoop {σ : Type} : List (Callback σ) → Nat → LoopState σ → Option (LoopState σ)
  | [], _, s => some s
  | f :: fs, idx, s =>
    match f s.world with
    | (Outcome.returned, w) =>
      runLoop fs (idx + 1)
        { s with world := w, invoked := s.invoked ++ [(idx, Outcome.returned)] }
    | (Outcome.threwException what, w) =>
      match checked (s.failed + 1) with
      | none => none
      | some n =>
        runLoop fs (idx + 1)
          { world := w, failed := n, cerr := s.cerr ++ ["Test threw: " ++ what],
            invoked := s.invoked ++ [(idx, Outcome.threwException what)] }
    | (Outcome.threwOther, w) =>
      match checked (s.failed + 1) with
      | none => none
      | some n =>
        runLoop fs (idx + 1)
          { world := w, failed := n, cerr := s.cerr ++ ["Test threw unknown"],
            invoked := s.invoked ++ [(idx, Outcome.threwOther)] }

/-- What `run` leaves behind: the returned value, the program state, the
lines written to `std::cerr` and `std::cout`, and the record of the calls
made. -/
structure RunResult (σ : Type) where
  ret : Int
  world : σ
  cerr : List String
  cout : List String
  invoked : List (Nat × Outcome)
  deriving DecidableEq

/-- The function `int run()` on the registry `registry` and the program
state `w`. -/
def run {σ : Type} (registry : List (Callback σ)) (w : σ) : Option (RunResult σ) :=
  match runLoop registry 0 { world := w, failed := 0, cerr := [], invoked := [] } with
  | none => none
  | some s =>
    if s.failed ≠ 0 then
      some { ret := 1, world := s.world,
             cerr := s.cerr ++ [toString s.failed ++ " test(s) failed"],
             cout := [], invoked := s.invoked }
    else
      some { ret := 0, world := s.world, cerr := s.cerr,
             cout := ["All tests passed"], invoked := s.invoked }

/-- The number of recorded calls that ended by a throw. -/
def thrown (calls : List (Nat × Outcome)) : Nat :=
  (calls.filter fun e => e.2.threw).length

/-- Three callbacks on a counter, used as a concrete registry: the first
returns, the second throws a `std::runtime_error`, the third throws an
`int`; each adds to the counter first. -/
def sampleTests : List (Callback Nat) :=
  [fun n => (Outcome.returned, n + 1),
   fun n => (Outcome.threwException "check failed", n + 10),
   fun n => (Outcome.threwOther, n + 100)]

end mtest

/-! ### C17-Fixed-Size-Arrays/exercises/s06-arrays-and-enum/main.cpp -/

namespace Animal

/-- The enumeration `Animal::Type`, the count `max_animals` included. -/
inductive Kind
  | chicken
  | dog
  | cat
  | elephant
  | duck
  | snake
  | max_animals
  deriving DecidableEq, Repr

/-- The value of an enumerator, as used for indexing. -/
def Kind.toNat : Kind → Nat
  | chicken => 0
  | dog => 1
  | cat => 2
  | elephant => 3
  | duck => 4
  | snake => 5
  | max_animals => 6

/-- The conversion `static_cast<Animal::Type>(index)`.  The loop of
`operator>>` converts indices of `Animal::data` only, all below 6; for the
values that name no enumerator `max_animals` stands in. -/
def Kind.staticCast : Nat → Kind
  | 0 => chicken
  | 1 => dog
  | 2 => cat
  | 3 => elephant
  | 4 => duck
  | 5 => snake
  | _ => max_animals

/-- The struct `Animal::Data`. -/
structure Data where
  name : String
  legs : Int
  sound : String
  deriving DecidableEq, Repr

/-- The array `Animal::types`. -/
def types : List Kind :=
  [Kind.chicken, Kind.dog, Kind.cat, Kind.elephant, Kind.duck, Kind.snake]

/-- The array `Animal::data`. -/
def data : List Data :=
  [{ name := "chicken", legs := 2, sound := "cluck" },
   { name := "dog", legs := 4, sound := "woof" },
   { name := "cat", legs := 4, sound := "meow" },
   { name := "elephant", legs := 4, sound := "pawoo" },
   { name := "duck", legs := 2, sound := "quack" },
   { name := "snake", legs := 0, sound := "hissss" }]

/-- A `std::istream`: the characters not yet extracted and the three state
flags.  The exception mask is the default one, so `setstate` never throws. -/
structure IStream where
  buf : List Char
  eofbit : Bool
  failbit : Bool
  badbit : Bool
  deriving DecidableEq, Repr

/-- The member `good()`: no flag is set. -/
def IStream.good (s : IStream) : Bool := !s.eofbit && !s.failbit && !s.badbit

/-- The member `fail()`, which `!in` tests: `failbit` or `badbit` is set. -/
def IStream.fail (s : IStream) : Bool := s.failbit || s.badbit

/-- The call `setstate(std::ios_base::failbit)`. -/
def IStream.setFailbit (s : IStream) : IStream := { s with failbit := true }

/-- The line delimiter of `std::getline`. -/
def newline : Char := Char.ofNat 10

/-- The function `std::isspace` of the classic locale: space, and the
control characters from horizontal tab to carriage return. -/
def isspace (c : Char) : Bool := c.toNat = 32 || (9 ≤ c.toNat && c.toNat ≤ 13)

/-- The manipulator `std::ws`.  On a stream that is not good the sentry sets
`failbit` and nothing is extracted; otherwise whitespace is discarded up to
the next other character, or up to the end of the input, which sets
`eofbit`. -/
def ws (s : IStream) : IStream :=
  if s.good then
    match s.buf.dropWhile isspace with
    | [] => { s with buf := [], eofbit := true }
    | c :: rest => { s with buf := c :: rest }
  else s.setFailbit

/-- The function `std::getline(in, str)`.  On a stream that is not good the
sentry sets `failbit` and `str` is left alone; otherwise `str` is erased and
receives the characters up to the next newline, which is extracted and
dropped, or up to the end of the input, which sets `eofbit`; when nothing
at all was extracted `failbit` is set.  (The limit `str.max_size()` is out
of reach.) -/
def getline (s : IStream) (str : String) : IStream × String :=
  if s.good then
    let line := s.buf.takeWhile (fun c => c ≠ newline)
    match s.buf.dropWhile (fun c => c ≠ newline) with
    | [] =>
      if line = [] then ({ s with buf := [], eofbit := true, failbit := true }, String.mk line)
      else ({ s with buf := [], eofbit := true }, String.mk line)
    | _ :: rest => ({ s with buf := rest }, String.mk line)
  else (s.setFailbit, str)

/-- The loop `for (index = 0; index < Animal::data.size(); ++index)` of
`operator>>` over the entries that are left, the first of them at position
`index`: the index at which the loop finds `input`, if it does. -/
def findName (input : String) : List Data → Nat → Option Nat
  | [], _ => none
  | d :: rest, index => if input = d.name then some index else findName input rest (index + 1)

/-- The string that `operator>>` reads: `std::string input {};` followed by
`std::getline(in >> std::ws, input);`. -/
def readInput (s : IStream) : IStream × String := getline (ws s) ""

/-- The function `std::istream& operator>> (std::istream& in, Animal::Type& animal)`:
the stream and the variable `animal` afterwards. -/
def operatorExtract (s : IStream) (animal : Kind) : IStream × Kind :=
  match findName (readInput s).2 data 0 with
  | some index => ((readInput s).1, Kind.staticCast index)
  | none => ((readInput s).1.setFailbit, animal)

/-- A stream in the good state that holds the characters of `text`. -/
def IStream.ofString (text : String) : IStream :=
  { buf := text.toList, eofbit := false, failbit := false, badbit := false }

end Animal

/-! ### C06-Operators/exercises/sx-questions/main.cpp -/

namespace QuantityPhrase

/-- The function `std::string getQuantityPhrase(int quantity)`, branch by
branch in the order of the source. -/
def getQuantityPhrase (quantity : Int) : String :=
  if quantity ≤ 0 then "negative"
  else if quantity = 0 then "no"
  else if quantity = 1 then "single"
  else if quantity = 2 then "a couple of"
  else if quantity = 3 then "a few"
  else if quantity > 3 then "many"
  else "unknown quantity"

/-- The function `std::string getApplesPluralized(int quantity)`. -/
def getApplesPluralized (quantity : Int) : String :=
  if quantity = 1 then "apple" else "apples"

end QuantityPhrase

/-! ### C07-Classes-RAII/sections/s01-file-raii/main.cpp -/

namespace FileRaii

/-- A non-null `std::FILE*`. -/
abbrev Handle := Nat

/-- The class `File`: its field `f`, with `none` for `nullptr`. -/
structure File where
  f : Option Handle
  deriving DecidableEq, Repr

/-- The state of a program that uses `File`: the `File` objects alive, by
address, the handles that `std::fopen` has returned, in order, and the
handles that `std::fclose` was called on, in order. -/
structure World where
  objs : Nat → Option File
  opened : List Handle
  closed : List Handle

/-- The state at program start: no object, nothing opened or closed. -/
def World.init : World := { objs := fun _ => none, opened := [], closed := [] }

/-- The call `std::fclose(h)`. -/
def fclose (w : World) (h : Handle) : World := { w with closed := w.closed ++ [h] }

/-- The assignment of `v` to the field `f` of the object at `addr`. -/
def setField (w : World) (addr : Nat) (v : Option Handle) : World :=
  { w with objs := Function.update w.objs addr (some { f := v }) }

/-- The member `get()` of the object at `addr`. -/
def get (w : World) (addr : Nat) : Option (Option Handle) :=
  (w.objs addr).map fun self => self.f

/-- The constructor `File(const char* path, const char* mode)` for an object
at the free address `self`, where `std::fopen` returns `fopenResult`.  A
null result makes the constructor throw and no object comes to life.
`std::fopen` never returns a stream that is open already: such a result, or
an address in use, is no step of any program (`none`). -/
def construct (w : World) (self : Nat) (fopenResult : Option Handle) : Option World :=
  if w.objs self ≠ none then none
  else
    match fopenResult with
    | none => some w
    | some h =>
      if w.opened.count h = w.closed.count h then
        some (setField { w with opened := w.opened ++ [h] } self (some h))
      else none

/-- The destructor `~File(){ if(f) std::fclose(f); }` of the object at
`self`, whose life ends. -/
def destruct (w : World) (self : Nat) : Option World :=
  match w.objs self with
  | none => none
  | some obj =>
    match obj.f with
    | some h => some { fclose w h with objs := Function.update w.objs self none }
    | none => some { w with objs := Function.update w.objs self none }

/-- The move constructor `File(File&& o) noexcept : f(o.f){ o.f=nullptr; }`
for an object at the free address `self` from the object at `o`. -/
def moveConstruct (w : World) (self o : Nat) : Option World :=
  if w.objs self ≠ none then none
  else
    match w.objs o with
    | none => none
    | some src => some (setField (setField w self src.f) o none)

/-- The move assignment
`if(this!=&o){ if(f) std::fclose(f); f=o.f; o.f=nullptr;} return *this;`
to the object at `self` from the object at `o`. -/
def moveAssign (w : World) (self o : Nat) : Option World :=
  match w.objs self, w.objs o with
  | some dst, some src =>
    if self ≠ o then
      match dst.f with
      | some h => some (setField (setField (fclose w h) self src.f) o none)
      | none => some (setField (setField w self src.f) o none)
    else some w
  | _, _ => none

/-- The operations a program performs on `File` objects. -/
inductive Op
  | construct (self : Nat) (fopenResult : Option Handle)
  | moveConstruct (self o : Nat)
  | moveAssign (self o : Nat)
  | destruct (self : Nat)
  deriving DecidableEq, Repr

/-- One operation on the state; `none` when the operation is not one a
program can perform there (an object used outside its life). -/
def step (w : World) : Op → Option World
  | Op.construct self r => construct w self r
  | Op.moveConstruct self o => moveConstruct w self o
  | Op.moveAssign self o => moveAssign w self o
  | Op.destruct self => destruct w self

/-- A sequence of operations, from the state `w`. -/
def run : World → List Op → Option World
  | w, [] => some w
  | w, op :: ops =>
    match step w op with
    | none => none
    | some w1 => run w1 ops

/-- The object at `addr` is alive and holds the handle `h`. -/
def holds (w : World) (addr : Nat) (h : Handle) : Prop := w.objs addr = some { f := some h }

instance (w : World) (addr : Nat) (h : Handle) : Decidable (holds w addr h) := by
  unfold holds; exact inferInstance

/-- Single ownership: a handle is held by at most one object; a handle that
is held was opened once more than it was closed; a handle that no object
holds was closed as often as it was opened. -/
def SingleOwner (w : World) : Prop :=
  (∀ a b h, holds w a h → holds w b h → a = b) ∧
  (∀ a h, holds w a h → w.opened.count h = w.closed.count h + 1) ∧
  (∀ h, (∀ a, ¬ holds w a h) → w.opened.count h = w.closed.count h)

/-- A program on three objects: a file is opened at address 0 and moved to
a new object at 1; a second file is opened at 2, receives the first by move
assignment, and is move-assigned to itself; then all three are destroyed. -/
def sampleOps : List Op :=
  [Op.construct 0 (some 7), Op.moveConstruct 1 0, Op.construct 2 (some 9),
   Op.moveAssign 2 1, Op.moveAssign 2 2, Op.destruct 2, Op.destruct 1, Op.destruct 0]

end FileRaii

/-! ## Part 2: lemmas and theorems -/

/-! ### Range facts -/

namespace Cpp

theorem checked_of_inInt {v : Int} (h : inInt v) : checked v = some v := by
  simp [checked, h]

theorem checked_eq_some_iff {v r : Int} : checked v = some r ↔ inInt v ∧ r = v := by
  unfold checked
  by_cases h : inInt v
  · simp [h, eq_comm]
  · simp [h]

end Cpp

/-! ### isPrime -/

namespace PrimeCheck

open Cpp

/-- An even trial divisor never divides an odd `x`, so the loop of `isPrime`
runs to its end and answers `true`, as long as `i * i` stays an `int`. -/
theorem isPrimeLoop_odd (x : Int) (hx : Int.tmod x 2 ≠ 0) (hx3 : 3 ≤ x) (hmax : x ≤ 2147395600) :
    ∀ (fuel : Nat) (i : Int), 2 ≤ i → i % 2 = 0 → i ≤ 46340 → 1 ≤ fuel → x < i + fuel →
      isPrimeLoop x fuel i = some true := by
  intro fuel
  induction fuel with
  | zero => intro i _ _ _ h; omega
  | succ n ih =>
    intro i hi2 hev hi hfuel hlt
    have hsq : inInt (i * i) := by
      constructor
      · unfold INT_MIN; nlinarith
      · unfold INT_MAX; nlinarith [mul_nonneg (sub_nonneg.2 hi) (sub_nonneg.2 hi2)]
    rw [isPrimeLoop, checked_of_inInt hsq]
    by_cases hlt2 : i * i < x
    · have hnd : Int.tmod x i ≠ 0 := by
        intro h0
        apply hx
        have hdvd : i ∣ x := Int.dvd_of_tmod_eq_zero h0
        have h2 : (2 : Int) ∣ i := Int.dvd_of_emod_eq_zero hev
        have h2x : (2 : Int) ∣ x := dvd_trans h2 hdvd
        exact Int.tmod_eq_zero_of_dvd h2x
      have hi46 : i < 46340 := by
        by_contra hc
        have : i = 46340 := by omega
        subst this
        omega
      have hnext : inInt (i + 2) := by
        constructor
        · unfold INT_MIN; omega
        · unfold INT_MAX; omega
      have hstep : i + 2 < x := by nlinarith
      simp only [hlt2, if_true, hnd, if_false, checked_of_inInt hnext]
      apply ih (i + 2) (by omega) (by omega) (by omega) (by omega)
      push_cast at hlt
      omega
    · simp [hlt2]

/-- For every odd `x` from 3 up to 46340 * 46340 the function `isPrime`
answers `true`, whether `x` is prime or not. -/
theorem isPrime_odd (x : Int) (hx : Int.tmod x 2 ≠ 0) (hx3 : 3 ≤ x) (hmax : x ≤ 2147395600) :
    isPrime x = some true := by
  unfold isPrime
  have h1 : ¬ x < 2 := by omega
  have h2 : ¬ x = 2 := by omega
  simp only [h1, h2, hx, if_false]
  apply isPrimeLoop_odd x hx hx3 hmax x.toNat 2 (by omega) (by decide) (by omega)
  · omega
  · have : ((x.toNat : Nat) : Int) = x := Int.toNat_of_nonneg (by omega)
    omega

/-- C1 (defect): `isPrime(9)` is `true` although 9 = 3 * 3 is not prime, and
`main` asserts `!isPrime(9)`; of the seventeen assertions of `main` exactly
those for 9, 15 and 99 fail. -/
theorem isPrime_nine_is_true :
    isPrime 9 = some true ∧ ¬ Nat.Prime 9 ∧ (9, false) ∈ mainAsserts ∧
      mainAsserts.filter (fun p => decide (isPrime p.1 ≠ some p.2))
        = [(9, false), (15, false), (99, false)] := by
  refine ⟨by decide, by norm_num, by decide, by decide⟩

end PrimeCheck

/-! ### factorial -/

namespace Factorial

open Cpp

/-- C4: for every `N` with `0 ≤ N ≤ 12`, `factorial<N>()` evaluates without
signed overflow and its value is `N!`. -/
theorem factorial_eq_factorial (N : Int) (h0 : 0 ≤ N) (h12 : N ≤ 12) :
    factorial N = some ((Nat.factorial N.toNat : Nat) : Int) := by
  interval_cases N <;> decide

/-- C4 at `N = 12`: the largest factorial that fits a 32-bit `int`. -/
theorem factorial_eq_factorial_witness :
    (0 : Int) ≤ 12 ∧ (12 : Int) ≤ 12 ∧
      factorial 12 = some ((Nat.factorial (12 : Int).toNat : Nat) : Int) :=
  ⟨by decide, by decide, factorial_eq_factorial 12 (by decide) (by decide)⟩

/-- The three `static_assert`s of `main` hold, and `factorial<13>()`
overflows. -/
theorem factorial_static_asserts :
    factorial 0 = some 1 ∧ factorial 3 = some 6 ∧ factorial 5 = some 120 ∧
      factorial 13 = none ∧ factorial (-3) = none := by
  decide

end Factorial

/-! ### sort2 -/

namespace Sort2

/-- C8: after `sort2(x, y)` the first variable is at most the second, the two
values are the same multiset as before, a second call changes nothing, and
`7 5` becomes `5 7` and stays `5 7`. -/
theorem sort2_sorted_perm_idem (x y : Int) :
    (sort2 (x, y)).1 ≤ (sort2 (x, y)).2 ∧
      ({(sort2 (x, y)).1, (sort2 (x, y)).2} : Multiset Int) = {x, y} ∧
      sort2 (sort2 (x, y)) = sort2 (x, y) ∧
      sort2 (7, 5) = (5, 7) ∧ sort2 (sort2 (7, 5)) = (5, 7) := by
  refine ⟨?_, ?_, ?_, by decide, by decide⟩
  · unfold sort2
    split <;> simp_all
    omega
  · unfold sort2
    split
    · exact Multiset.pair_comm y x
    · rfl
  · unfold sort2
    by_cases h : x > y
    · have h2 : ¬ y > x := by omega
      simp [h, h2]
    · simp [h]

end Sort2

/-! ### accumulate -/

namespace Accumulate

open Cpp

theorem runningTotals_cons (x : Int) (xs : List Int) :
    runningTotals (x :: xs) = x :: (runningTotals xs).map (fun t => x + t) := by
  unfold runningTotals
  simp [List.range_succ_eq_map, List.map_map, Function.comp_def]

theorem callsFrom_eq (xs : List Int) :
    ∀ acc : Int, (∀ k, 1 ≤ k → k ≤ xs.length → inInt (acc + (xs.take k).sum)) →
      callsFrom acc xs = some ((runningTotals xs).map (fun t => acc + t)) := by
  induction xs with
  | nil => intro acc _; simp [callsFrom, runningTotals]
  | cons x xs ih =>
    intro acc h
    have h1 : inInt (acc + x) := by
      have := h 1 (le_refl 1) (by simp)
      simpa using this
    have hrest : ∀ k, 1 ≤ k → k ≤ xs.length → inInt (acc + x + (xs.take k).sum) := by
      intro k hk1 hk
      have := h (k + 1) (by omega) (by simp; omega)
      simpa [add_assoc] using this
    rw [callsFrom, accumulate, checked_of_inInt h1]
    simp only [ih (acc + x) hrest, runningTotals_cons, List.map_cons, List.map_map]
    simp [Function.comp_def, add_assoc]

/-- C9 as amended: for every sequence of calls `accumulate(x1)`, ...,
`accumulate(xn)` whose running totals `x1 + ... + xk` all fit an `int`, the
k-th call returns `x1 + ... + xk`. -/
theorem calls_eq_runningTotals (xs : List Int)
    (h : ∀ k, k ≤ xs.length → inInt (xs.take k).sum) :
    calls xs = some (runningTotals xs) := by
  unfold calls accInit
  rw [callsFrom_eq xs 0 (fun k _ hk => by simpa using h k hk)]
  simp

/-- C9 as amended, on the calls of `main`: 4, 3, 2, 1 return 4, 7, 9, 10. -/
theorem calls_eq_runningTotals_witness :
    (∀ k, k ≤ [(4 : Int), 3, 2, 1].length → inInt ([(4 : Int), 3, 2, 1].take k).sum) ∧
      calls [4, 3, 2, 1] = some (runningTotals [4, 3, 2, 1]) ∧
      runningTotals [4, 3, 2, 1] = [4, 7, 9, 10] :=
  have h : ∀ k, k ≤ [(4 : Int), 3, 2, 1].length → inInt ([(4 : Int), 3, 2, 1].take k).sum := by
    intro k hk
    have hk4 : k ≤ 4 := hk
    interval_cases k <;> decide
  ⟨h, calls_eq_runningTotals [4, 3, 2, 1] h, by decide⟩

/-- C9 as stated fails: after `accumulate(2147483647)` the call
`accumulate(1)` overflows `acc` and does not return `2147483647 + 1`. -/
theorem calls_overflow_counterexample :
    inInt 2147483647 ∧ inInt 1 ∧
      runningTotals [2147483647, 1] = [2147483647, 2147483648] ∧
      calls [2147483647, 1] = none ∧
      calls [2147483647, 1] ≠ some (runningTotals [2147483647, 1]) := by
  refine ⟨by decide, by decide, by decide, by decide, by decide⟩

end Accumulate

/-! ### calculate -/

namespace Calculate

open Cpp

theorem inInt_tdiv {a b : Int} (ha : inInt a) (hb : b ≠ 0)
    (h : ¬ (a = INT_MIN ∧ b = -1)) : inInt (Int.tdiv a b) := by
  unfold inInt INT_MIN INT_MAX at *
  obtain ⟨hlo, hhi⟩ := ha
  have habs : (Int.tdiv a b).natAbs ≤ a.natAbs := by
    rw [Int.natAbs_tdiv]
    exact Nat.div_le_self _ _
  by_cases hb1 : b = -1
  · subst hb1
    have : Int.tdiv a (-1) = -a := by simp
    rw [this]
    have : a ≠ -2147483648 := fun e => h ⟨e, rfl⟩
    omega
  · by_cases hb2 : b = 1
    · subst hb2
      simp
      omega
    · have hb3 : 2 ≤ b.natAbs := by omega
      have : (Int.tdiv a b).natAbs ≤ a.natAbs / 2 := by
        rw [Int.natAbs_tdiv]
        exact Nat.div_le_div_left hb3 (by decide)
      omega

/-- C10 as amended: `calculate(a, b, op)` returns `a+b`, `a-b`, `a*b` for op
`+`, `-`, `*` whenever that value fits an `int`, and the truncated quotient
for op `/` when `b != 0` and not (`a == INT_MIN` and `b == -1`); for op `/`
with `b == 0` it writes "Error: Division by zero!" to `std::cerr` and returns
0, and for every op outside `+ - * / %` it writes "Error: Unknown operator!"
and returns 0. -/
theorem calculate_contract (a b : Int) (op : Char) (ha : inInt a) :
    (op = '+' → inInt (a + b) → calculate a b op = some (a + b, [])) ∧
    (op = '-' → inInt (a - b) → calculate a b op = some (a - b, [])) ∧
    (op = '*' → inInt (a * b) → calculate a b op = some (a * b, [])) ∧
    (op = '/' → b ≠ 0 → ¬ (a = INT_MIN ∧ b = -1) →
      calculate a b op = some (Int.tdiv a b, [])) ∧
    (op = '/' → b = 0 → calculate a b op = some (0, ["Error: Division by zero!"])) ∧
    (op ∉ ['+', '-', '*', '/', '%'] →
      calculate a b op = some (0, ["Error: Unknown operator!"])) := by
  refine ⟨?_, ?_, ?_, ?_, ?_, ?_⟩
  · rintro rfl h
    simp [calculate, checked_of_inInt h]
  · rintro rfl h
    simp [calculate, checked_of_inInt h]
  · rintro rfl h
    simp [calculate, checked_of_inInt h]
  · rintro rfl hb h
    simp [calculate, hb, checked_of_inInt (inInt_tdiv ha hb h)]
  · rintro rfl rfl
    simp [calculate]
  · intro h
    simp only [List.mem_cons, List.mem_singleton, List.not_mem_nil, or_false, not_or] at h
    obtain ⟨h1, h2, h3, h4, h5⟩ := h
    simp [calculate, h1, h2, h3, h4, h5]

/-- C10 as amended, at `7 / 2`, at `7 / 0` and at the operator `^`. -/
theorem calculate_contract_witness :
    inInt 7 ∧ calculate 7 2 '/' = some (3, []) ∧
      calculate 7 0 '/' = some (0, ["Error: Division by zero!"]) ∧
      calculate 7 2 '^' = some (0, ["Error: Unknown operator!"]) :=
  ⟨by decide,
   (calculate_contract 7 2 '/' (by decide)).2.2.2.1 rfl (by decide) (by decide),
   (calculate_contract 7 0 '/' (by decide)).2.2.2.2.1 rfl rfl,
   (calculate_contract 7 2 '^' (by decide)).2.2.2.2.2 (by decide)⟩

/-- C10 as stated fails: `calculate(INT_MIN, -1, '/')` has `b != 0` but the
truncated quotient 2147483648 is no `int`, and `calculate(INT_MAX, 1, '+')`
cannot return 2147483648 either. -/
theorem calculate_overflow_counterexample :
    inInt (-2147483648) ∧ inInt (-1) ∧ (-1 : Int) ≠ 0 ∧
      Int.tdiv (-2147483648) (-1) = 2147483648 ∧
      calculate (-2147483648) (-1) '/' = none ∧
      calculate (-2147483648) (-1) '/' ≠ some (Int.tdiv (-2147483648) (-1), []) ∧
      inInt 2147483647 ∧ inInt 1 ∧
      calculate 2147483647 1 '+' ≠ some (2147483647 + 1, []) := by
  refine ⟨by decide, by decide, by decide, by decide, by decide, by decide, by decide,
    by decide, by decide⟩

end Calculate

/-! ### Player::buy -/

namespace Player

open Cpp

/-- What `buy` does on an object with a four-entry inventory, gold that is
an `int`, and a count that can still be incremented. -/
theorem buy_of_bounds (p : Player) (type : Potion.Kind) (hty : type ∈ Potion.types)
    (hlen : p.m_inventory.length = 4) (hgold : p.m_gold ≤ INT_MAX)
    (hcount : ∀ n, p.m_inventory[type.toNat]? = some n → inInt (n + 1)) :
    ∃ cost n, Potion.costs[type.toNat]? = some cost ∧ p.get_inventory type = some n ∧
      (p.m_gold < cost → p.buy type = some (false, p)) ∧
      (¬ p.m_gold < cost → ∃ q, p.buy type = some (true, q) ∧
        q.get_inventory type = some (n + 1) ∧ q.m_gold = p.m_gold - cost ∧
        q.m_name = p.m_name ∧ q.m_inventory.length = 4 ∧
        ∀ other : Potion.Kind, other ≠ type → q.get_inventory other = p.get_inventory other) := by
  obtain ⟨name, inv, gold⟩ := p
  match inv, hlen with
  | [a, b, c, d], _ =>
    simp only [Potion.types, List.mem_cons, List.mem_singleton, List.not_mem_nil, or_false] at hty
    have key : ∀ (cost n : Int) (k : Nat), Potion.costs[type.toNat]? = some cost →
        type.toNat = k → [a, b, c, d][k]? = some n → 0 < cost →
        (gold < cost → buy ⟨name, [a, b, c, d], gold⟩ type
            = some (false, ⟨name, [a, b, c, d], gold⟩)) ∧
        (¬ gold < cost → buy ⟨name, [a, b, c, d], gold⟩ type
            = some (true, ⟨name, [a, b, c, d].set k (n + 1), gold - cost⟩)) := by
      intro cost n k hc hk hn hpos
      subst hk
      have hin : inInt (n + 1) := hcount n hn
      have hg : ∀ _ : ¬ gold < cost, inInt (gold - cost) := by
        intro h
        simp only at hgold
        unfold inInt INT_MIN INT_MAX at *
        omega
      constructor
      · intro h
        simp [buy, hc, h]
      · intro h
        simp [buy, hc, h, hn, checked_of_inInt hin, checked_of_inInt (hg h)]
    rcases hty with rfl | rfl | rfl | rfl
    · obtain ⟨k1, k2⟩ := key 20 a 0 rfl rfl rfl (by decide)
      refine ⟨20, a, rfl, rfl, k1, fun h => ⟨_, k2 h, rfl, rfl, rfl, rfl, ?_⟩⟩
      intro other ho
      cases other <;> first | exact absurd rfl ho | rfl
    · obtain ⟨k1, k2⟩ := key 30 b 1 rfl rfl rfl (by decide)
      refine ⟨30, b, rfl, rfl, k1, fun h => ⟨_, k2 h, rfl, rfl, rfl, rfl, ?_⟩⟩
      intro other ho
      cases other <;> first | exact absurd rfl ho | rfl
    · obtain ⟨k1, k2⟩ := key 12 c 2 rfl rfl rfl (by decide)
      refine ⟨12, c, rfl, rfl, k1, fun h => ⟨_, k2 h, rfl, rfl, rfl, rfl, ?_⟩⟩
      intro other ho
      cases other <;> first | exact absurd rfl ho | rfl
    · obtain ⟨k1, k2⟩ := key 50 d 3 rfl rfl rfl (by decide)
      refine ⟨50, d, rfl, rfl, k1, fun h => ⟨_, k2 h, rfl, rfl, rfl, rfl, ?_⟩⟩
      intro other ho
      cases other <;> first | exact absurd rfl ho | rfl

/-- The invariant of the reachable `Player` objects: four counts, none
negative, and gold that is not negative and with any one count is at most
the 120 that the constructor can hand out. -/
theorem inv_of_reachable (p : Player) (h : Reachable p) :
    p.m_inventory.length = 4 ∧ 0 ≤ p.m_gold ∧
      ∀ n ∈ p.m_inventory, 0 ≤ n ∧ n + p.m_gold ≤ 120 := by
  induction h with
  | construct name gold h80 h120 =>
    refine ⟨rfl, by simp only [Player.new]; omega, ?_⟩
    intro n hn
    simp only [Player.new, List.mem_replicate] at hn ⊢
    omega
  | bought p q type b _ hbuy ih =>
    obtain ⟨hlen, hgold, hall⟩ := ih
    unfold buy at hbuy
    split at hbuy
    · cases hbuy
    · rename_i cost hc
      have hcost : 12 ≤ cost := by
        have hmem : cost ∈ Potion.costs := List.getElem?_mem hc
        simp only [Potion.costs, List.mem_cons, List.mem_singleton, List.not_mem_nil,
          or_false] at hmem
        omega
      split at hbuy
      · cases hbuy
        exact ⟨hlen, hgold, hall⟩
      · rename_i hge
        split at hbuy
        · cases hbuy
        · rename_i n hn
          have hnmem : n ∈ p.m_inventory := List.getElem?_mem hn
          split at hbuy
          · cases hbuy
          · rename_i n1 hn1
            obtain ⟨_, rfl⟩ := checked_eq_some_iff.1 hn1
            split at hbuy
            · cases hbuy
            · rename_i g hg
              obtain ⟨_, rfl⟩ := checked_eq_some_iff.1 hg
              cases hbuy
              refine ⟨by simpa using hlen, by simp only; omega, ?_⟩
              intro m hm
              simp only at hm ⊢
              rcases List.mem_or_eq_of_mem_set hm with hm | rfl
              · have := hall m hm
                omega
              · have := hall n hnmem
                omega

/-- C5: on every `Player` object a program can hold and for every potion
type of `Potion::types`, `buy(type)` returns `false` exactly when
`m_gold < Potion::costs[type]` and then changes nothing; otherwise it
returns `true`, adds exactly 1 to `m_inventory[type]`, takes exactly
`Potion::costs[type]` from `m_gold`, and leaves the other counts and the
name as they were. -/
theorem buy_contract (p : Player) (type : Potion.Kind) (hp : Reachable p)
    (hty : type ∈ Potion.types) :
    ∃ cost n, Potion.costs[type.toNat]? = some cost ∧ p.get_inventory type = some n ∧
      (p.m_gold < cost → p.buy type = some (false, p)) ∧
      (¬ p.m_gold < cost → ∃ q, p.buy type = some (true, q) ∧
        q.get_inventory type = some (n + 1) ∧ q.m_gold = p.m_gold - cost ∧
        q.m_name = p.m_name ∧ q.m_inventory.length = 4 ∧
        ∀ other : Potion.Kind, other ≠ type → q.get_inventory other = p.get_inventory other) := by
  obtain ⟨hlen, hgold, hall⟩ := inv_of_reachable p hp
  apply buy_of_bounds p type hty hlen
  · match hinv : p.m_inventory, hlen with
    | [a, b, c, d], _ =>
      have ha := hall a (by simp [hinv])
      unfold INT_MAX
      omega
  · intro n hn
    have := hall n (List.getElem?_mem hn)
    unfold inInt INT_MIN INT_MAX
    omega

/-- C5 on a fresh player with 100 gold buying a potion of speed, and on the
same player, 8 gold left after eight such purchases, refused a ninth. -/
theorem buy_contract_witness :
    Reachable (Player.new "Alex" 100) ∧ Potion.Kind.speed ∈ Potion.types ∧
      ∃ cost n, Potion.costs[Potion.Kind.speed.toNat]? = some cost ∧
        (Player.new "Alex" 100).get_inventory Potion.Kind.speed = some n ∧
        ((Player.new "Alex" 100).m_gold < cost →
          (Player.new "Alex" 100).buy Potion.Kind.speed = some (false, Player.new "Alex" 100)) ∧
        (¬ (Player.new "Alex" 100).m_gold < cost →
          ∃ q, (Player.new "Alex" 100).buy Potion.Kind.speed = some (true, q) ∧
            q.get_inventory Potion.Kind.speed = some (n + 1) ∧
            q.m_gold = (Player.new "Alex" 100).m_gold - cost ∧
            q.m_name = (Player.new "Alex" 100).m_name ∧ q.m_inventory.length = 4 ∧
            ∀ other : Potion.Kind, other ≠ Potion.Kind.speed →
              q.get_inventory other = (Player.new "Alex" 100).get_inventory other) :=
  ⟨Reachable.construct "Alex" 100 (by decide) (by decide), by decide,
   buy_contract (Player.new "Alex" 100) Potion.Kind.speed
     (Reachable.construct "Alex" 100 (by decide) (by decide)) (by decide)⟩

/-- Two purchases evaluated: with 100 gold a potion of speed is bought for
12, with 8 gold it is refused and nothing changes. -/
theorem buy_examples :
    (Player.new "Alex" 100).buy Potion.Kind.speed
        = some (true, ⟨"Alex", [0, 0, 1, 0], 88⟩) ∧
      (Player.mk "Alex" [0, 0, 7, 0] 8).buy Potion.Kind.speed
        = some (false, ⟨"Alex", [0, 0, 7, 0], 8⟩) ∧
      (Player.new "Alex" 100).buy Potion.Kind.n_potions = none := by
  decide

end Player

/-! ### mtest::run -/

namespace mtest

open Cpp

theorem foldl_reg {σ : Type} (fs : List (Callback σ)) :
    ∀ registry : List (Callback σ), fs.foldl reg registry = registry ++ fs := by
  induction fs with
  | nil => intro registry; simp
  | cons f fs ih => intro registry; simp [List.foldl_cons, ih, reg]

/-- The loop of `run`, as long as the counter `failed` has room for one
failure per callback left: it ends, every callback left is called once, in
order, each on the state its predecessor left, and `failed` grows by the
number of calls that threw. -/
theorem runLoop_spec {σ : Type} (fs : List (Callback σ)) :
    ∀ (idx : Nat) (s : LoopState σ), 0 ≤ s.failed → s.failed + fs.length ≤ INT_MAX →
      ∃ (t : LoopState σ) (calls : List (Nat × Outcome)),
        runLoop fs idx s = some t ∧ t.invoked = s.invoked ++ calls ∧
        calls.map Prod.fst = List.range' idx fs.length ∧
        t.failed = s.failed + thrown calls ∧
        t.world = fs.foldl (fun w f => (f w).2) s.world := by
  induction fs with
  | nil =>
    intro idx s _ _
    exact ⟨s, [], rfl, by simp, by simp, by simp [thrown], rfl⟩
  | cons f fs ih =>
    intro idx s h0 hmax
    simp only [List.length_cons, Nat.cast_add, Nat.cast_one] at hmax
    have hin : inInt (s.failed + 1) := by
      unfold inInt INT_MIN INT_MAX at *
      omega
    rcases hf : f s.world with ⟨o, w⟩
    cases o with
    | returned =>
      obtain ⟨t, calls, ht, hinv, hpos, hfail, hworld⟩ :=
        ih (idx + 1) { s with world := w, invoked := s.invoked ++ [(idx, Outcome.returned)] }
          h0 (by simp only; omega)
      refine ⟨t, (idx, Outcome.returned) :: calls, ?_, ?_, ?_, ?_, ?_⟩
      · simp only [runLoop, hf]; exact ht
      · simpa using hinv
      · simp [hpos, List.range'_succ]
      · simp only [hfail]
        have : thrown ((idx, Outcome.returned) :: calls) = thrown calls := by
          simp [thrown, Outcome.threw]
        rw [this]
      · simp only [List.foldl_cons, hf]; exact hworld
    | threwException what =>
      obtain ⟨t, calls, ht, hinv, hpos, hfail, hworld⟩ :=
        ih (idx + 1) { world := w, failed := s.failed + 1,
                       cerr := s.cerr ++ ["Test threw: " ++ what],
                       invoked := s.invoked ++ [(idx, Outcome.threwException what)] }
          (by simp only; omega) (by simp only; omega)
      refine ⟨t, (idx, Outcome.threwException what) :: calls, ?_, ?_, ?_, ?_, ?_⟩
      · simp only [runLoop, hf, checked_of_inInt hin]; exact ht
      · simpa using hinv
      · simp [hpos, List.range'_succ]
      · simp only [hfail]
        have : thrown ((idx, Outcome.threwException what) :: calls) = thrown calls + 1 := by
          simp [thrown, Outcome.threw]
        rw [this]; push_cast; ring
      · simp only [List.foldl_cons, hf]; exact hworld
    | threwOther =>
      obtain ⟨t, calls, ht, hinv, hpos, hfail, hworld⟩ :=
        ih (idx + 1) { world := w, failed := s.failed + 1,
                       cerr := s.cerr ++ ["Test threw unknown"],
                       invoked := s.invoked ++ [(idx, Outcome.threwOther)] }
          (by simp only; omega) (by simp only; omega)
      refine ⟨t, (idx, Outcome.threwOther) :: calls, ?_, ?_, ?_, ?_, ?_⟩
      · simp only [runLoop, hf, checked_of_inInt hin]; exact ht
      · simpa using hinv
      · simp [hpos, List.range'_succ]
      · simp only [hfail]
        have : thrown ((idx, Outcome.threwOther) :: calls) = thrown calls + 1 := by
          simp [thrown, Outcome.threw]
        rw [this]; push_cast; ring
      · simp only [List.foldl_cons, hf]; exact hworld

/-- What `run` does on a registry whose size is an `int`: it returns; it
returns 1 with the line of the count when `failed` ended non-zero and 0 with
"All tests passed" otherwise; the record and the final state are those of
calling every callback once, in order. -/
theorem run_spec {σ : Type} (registry : List (Callback σ)) (w : σ)
    (hsize : (registry.length : Int) ≤ INT_MAX) :
    ∃ r : RunResult σ, run registry w = some r ∧
      r.invoked.map Prod.fst = List.range registry.length ∧
      r.world = registry.foldl (fun w f => (f w).2) w ∧
      (thrown r.invoked = 0 → r.ret = 0 ∧ r.cout = ["All tests passed"]) ∧
      (thrown r.invoked ≠ 0 → r.ret = 1 ∧ r.cout = [] ∧
        r.cerr.getLast? = some (toString (thrown r.invoked : Int) ++ " test(s) failed")) := by
  obtain ⟨t, calls, ht, hinv, hpos, hfail, hworld⟩ :=
    runLoop_spec registry 0 { world := w, failed := 0, cerr := [], invoked := [] }
      (le_refl _) (by simpa using hsize)
  simp only [List.nil_append, zero_add] at hinv hfail
  by_cases hz : thrown calls = 0
  · refine ⟨{ ret := 0, world := t.world, cerr := t.cerr, cout := ["All tests passed"],
              invoked := t.invoked }, ?_, ?_, hworld, ?_, ?_⟩
    · simp [run, ht, hfail, hz]
    · simp [hinv, hpos, List.range_eq_range']
    · intro _; exact ⟨rfl, rfl⟩
    · intro h; exact absurd (by simpa [hinv] using hz) h
  · refine ⟨{ ret := 1, world := t.world,
              cerr := t.cerr ++ [toString t.failed ++ " test(s) failed"], cout := [],
              invoked := t.invoked }, ?_, ?_, hworld, ?_, ?_⟩
    · simp [run, ht, hfail, hz]
    · simp [hinv, hpos, List.range_eq_range']
    · intro h; exact absurd (by simpa [hinv] using h) hz
    · intro _
      refine ⟨rfl, rfl, ?_⟩
      simp [hinv, hfail]

/-- C3: when the callbacks `fs` are registered through `reg` in that order
on the empty registry (fewer than 2^31 of them), `run()` returns after
having called every one of them exactly once, in the order of registration:
the positions called are `0, 1, ..., n-1` whatever the calls threw, and the
program state is the one left by the callbacks applied one after the other. -/
theorem run_invokes_each_once_in_order {σ : Type} (fs : List (Callback σ)) (w : σ)
    (hsize : (fs.length : Int) ≤ INT_MAX) :
    fs.foldl reg [] = fs ∧
    ∃ r : RunResult σ, run (fs.foldl reg []) w = some r ∧
      r.invoked.map Prod.fst = List.range fs.length ∧
      r.world = fs.foldl (fun w f => (f w).2) w := by
  have hreg : fs.foldl reg [] = fs := by simpa using foldl_reg fs []
  rw [hreg]
  obtain ⟨r, hr, hpos, hworld, _, _⟩ := run_spec fs w hsize
  exact ⟨rfl, r, hr, hpos, hworld⟩

/-- C3 on the three sample callbacks: all three are called although the
second and the third throw, and the counter ends at 1 + 10 + 100. -/
theorem run_invokes_each_once_in_order_witness :
    ((sampleTests.length : Int) ≤ INT_MAX) ∧
      sampleTests.foldl reg [] = sampleTests ∧
      ∃ r : RunResult Nat, run (sampleTests.foldl reg []) 0 = some r ∧
        r.invoked.map Prod.fst = List.range sampleTests.length ∧
        r.world = sampleTests.foldl (fun w f => (f w).2) 0 :=
  ⟨by decide, run_invokes_each_once_in_order sampleTests 0 (by decide)⟩

/-- The run of the three sample callbacks, evaluated. -/
theorem run_sampleTests :
    run sampleTests 0 = some
      { ret := 1, world := 111,
        cerr := ["Test threw: check failed", "Test threw unknown", "2 test(s) failed"],
        cout := [],
        invoked := [(0, Outcome.returned), (1, Outcome.threwException "check failed"),
                    (2, Outcome.threwOther)] } := by
  decide

end mtest

/-! ### operator>> for Animal::Type -/

namespace Animal

/-- Four extractions evaluated: a name after blanks and a newline, a name
that ends the input, a line that is no name, and blank input. -/
theorem operatorExtract_examples :
    operatorExtract (IStream.ofString "  \n cat\ndog") Kind.max_animals
        = ({ buf := "dog".toList, eofbit := false, failbit := false, badbit := false },
           Kind.cat) ∧
      operatorExtract (IStream.ofString "cat") Kind.max_animals
        = ({ buf := [], eofbit := true, failbit := false, badbit := false }, Kind.cat) ∧
      operatorExtract (IStream.ofString "cow\ncat") Kind.dog
        = ({ buf := "cat".toList, eofbit := false, failbit := true, badbit := false },
           Kind.dog) ∧
      operatorExtract (IStream.ofString "  ") Kind.dog
        = ({ buf := [], eofbit := true, failbit := true, badbit := false }, Kind.dog) := by
  decide

theorem dropWhile_isspace_append (pre : List Char) (c : Char) (tail : List Char)
    (hpre : ∀ x ∈ pre, isspace x = true) (hc : isspace c = false) :
    (pre ++ c :: tail).dropWhile isspace = c :: tail := by
  induction pre with
  | nil => simp [List.dropWhile_cons, hc]
  | cons x xs ih =>
    have hx : isspace x = true := hpre x (by simp)
    simp only [List.cons_append, List.dropWhile_cons, hx, if_true]
    exact ih (fun y hy => hpre y (by simp [hy]))

theorem takeWhile_line (line rest : List Char) (h : newline ∉ line) :
    (line ++ newline :: rest).takeWhile (fun c => c ≠ newline) = line := by
  induction line with
  | nil => simp [List.takeWhile_cons]
  | cons x xs ih =>
    have hx : x ≠ newline := fun e => h (by simp [e])
    simp only [List.cons_append, List.takeWhile_cons, hx, ne_eq, not_false_eq_true,
      decide_True, if_true]
    rw [ih (fun hm => h (by simp [hm]))]

theorem dropWhile_line (line rest : List Char) (h : newline ∉ line) :
    (line ++ newline :: rest).dropWhile (fun c => c ≠ newline) = newline :: rest := by
  induction line with
  | nil => simp [List.dropWhile_cons]
  | cons x xs ih =>
    have hx : x ≠ newline := fun e => h (by simp [e])
    simp only [List.cons_append, List.dropWhile_cons, hx, ne_eq, not_false_eq_true,
      decide_True, if_true]
    exact ih (fun hm => h (by simp [hm]))

theorem takeWhile_lastLine (line : List Char) (h : newline ∉ line) :
    line.takeWhile (fun c => c ≠ newline) = line := by
  rw [List.takeWhile_eq_self_iff]
  intro c hc
  have : c ≠ newline := fun e => h (e ▸ hc)
  simp [this]

theorem dropWhile_lastLine (line : List Char) (h : newline ∉ line) :
    line.dropWhile (fun c => c ≠ newline) = [] := by
  rw [List.dropWhile_eq_nil_iff]
  intro c hc
  have : c ≠ newline := fun e => h (e ▸ hc)
  simp [this]

/-- On a good stream whose input is whitespace, then a line that starts with
a character that is not whitespace, then a newline, `operator>>` reads
exactly that line and leaves the stream good, right after the newline. -/
theorem readInput_line (pre rest cs : List Char) (c : Char)
    (hpre : ∀ x ∈ pre, isspace x = true) (hc : isspace c = false)
    (hnl : newline ∉ c :: cs) :
    readInput { buf := pre ++ (c :: cs) ++ newline :: rest, eofbit := false,
                failbit := false, badbit := false }
      = ({ buf := rest, eofbit := false, failbit := false, badbit := false },
         String.mk (c :: cs)) := by
  have h1 : (pre ++ (c :: cs) ++ newline :: rest).dropWhile isspace
      = c :: (cs ++ newline :: rest) := by
    have := dropWhile_isspace_append pre c (cs ++ newline :: rest) hpre hc
    simpa using this
  have h2 := takeWhile_line (c :: cs) rest hnl
  have h3 := dropWhile_line (c :: cs) rest hnl
  simp only [List.cons_append] at h2 h3
  simp only [readInput, ws, IStream.good, h1, Bool.not_false, Bool.and_self, if_true,
    getline, h2, h3]

/-- The same when the line is the last of the input and has no newline
after it: the line is read, `eofbit` is set, `failbit` is not. -/
theorem readInput_lastLine (pre cs : List Char) (c : Char)
    (hpre : ∀ x ∈ pre, isspace x = true) (hc : isspace c = false)
    (hnl : newline ∉ c :: cs) :
    readInput { buf := pre ++ (c :: cs), eofbit := false, failbit := false, badbit := false }
      = ({ buf := [], eofbit := true, failbit := false, badbit := false },
         String.mk (c :: cs)) := by
  have h1 : (pre ++ (c :: cs)).dropWhile isspace = c :: cs :=
    dropWhile_isspace_append pre c cs hpre hc
  have h2 := takeWhile_lastLine (c :: cs) hnl
  have h3 := dropWhile_lastLine (c :: cs) hnl
  simp only [readInput, ws, IStream.good, h1, Bool.not_false, Bool.and_self, if_true,
    getline, h2, h3]
  simp

theorem operatorExtract_of_entry (d : Data) (k : Kind) (c : Char) (cs : List Char)
    (hname : d.name = String.mk (c :: cs)) (hc : isspace c = false)
    (hnl : newline ∉ c :: cs) (hfind : findName d.name data 0 = some k.toNat)
    (hcast : Kind.staticCast k.toNat = k) (pre rest : List Char) (animal : Kind)
    (hpre : ∀ x ∈ pre, isspace x = true) :
    operatorExtract { buf := pre ++ d.name.toList ++ newline :: rest, eofbit := false,
                      failbit := false, badbit := false } animal
        = ({ buf := rest, eofbit := false, failbit := false, badbit := false }, k) ∧
      operatorExtract { buf := pre ++ d.name.toList, eofbit := false, failbit := false,
                        badbit := false } animal
        = ({ buf := [], eofbit := true, failbit := false, badbit := false }, k) := by
  have htl : d.name.toList = c :: cs := by rw [hname]; rfl
  rw [htl]
  rw [hname] at hfind
  constructor
  · simp only [operatorExtract, readInput_line pre rest cs c hpre hc hnl, hfind, hcast]
  · simp only [operatorExtract, readInput_lastLine pre cs c hpre hc hnl, hfind, hcast]

/-- C6: for every animal type `t` of `Animal::types`, extracting from a good
stream whose input is whitespace, then the name `Animal::data[t].name`, then
a newline, sets the target to `t` and leaves the stream good, right after
the newline; when the name ends the input instead, the target is `t` as
well and the stream has not failed (`eofbit` alone is set).  The six names
are pairwise distinct. -/
theorem operatorExtract_name_roundtrip (t : Kind) (ht : t ∈ types) (pre rest : List Char)
    (animal : Kind) (hpre : ∀ x ∈ pre, isspace x = true) :
    ∃ d : Data, data[t.toNat]? = some d ∧
      operatorExtract { buf := pre ++ d.name.toList ++ newline :: rest, eofbit := false,
                        failbit := false, badbit := false } animal
        = ({ buf := rest, eofbit := false, failbit := false, badbit := false }, t) ∧
      (operatorExtract { buf := pre ++ d.name.toList ++ newline :: rest, eofbit := false,
                         failbit := false, badbit := false } animal).1.good = true ∧
      (operatorExtract { buf := pre ++ d.name.toList, eofbit := false, failbit := false,
                         badbit := false } animal).2 = t ∧
      (operatorExtract { buf := pre ++ d.name.toList, eofbit := false, failbit := false,
                         badbit := false } animal).1.fail = false ∧
      (data.map Data.name).Nodup := by
  have key : ∀ (d : Data) (c : Char) (cs : List Char), data[t.toNat]? = some d →
      d.name = String.mk (c :: cs) → isspace c = false → newline ∉ c :: cs →
      findName d.name data 0 = some t.toNat → Kind.staticCast t.toNat = t →
      ∃ d : Data, data[t.toNat]? = some d ∧
        operatorExtract { buf := pre ++ d.name.toList ++ newline :: rest, eofbit := false,
                          failbit := false, badbit := false } animal
          = ({ buf := rest, eofbit := false, failbit := false, badbit := false }, t) ∧
        (operatorExtract { buf := pre ++ d.name.toList ++ newline :: rest, eofbit := false,
                           failbit := false, badbit := false } animal).1.good = true ∧
        (operatorExtract { buf := pre ++ d.name.toList, eofbit := false, failbit := false,
                           badbit := false } animal).2 = t ∧
        (operatorExtract { buf := pre ++ d.name.toList, eofbit := false, failbit := false,
                           badbit := false } animal).1.fail = false ∧
        (data.map Data.name).Nodup := by
    intro d c cs hd hname hc hnl hfind hcast
    obtain ⟨e1, e2⟩ := operatorExtract_of_entry d t c cs hname hc hnl hfind hcast pre rest
      animal hpre
    exact ⟨d, hd, e1, by rw [e1]; rfl, by rw [e2], by rw [e2]; rfl, by decide⟩
  simp only [types, List.mem_cons, List.mem_singleton, List.not_mem_nil, or_false] at ht
  rcases ht with rfl | rfl | rfl | rfl | rfl | rfl
  · exact key ⟨"chicken", 2, "cluck"⟩ 'c' "hicken".toList rfl rfl (by decide) (by decide)
      (by decide) rfl
  · exact key ⟨"dog", 4, "woof"⟩ 'd' "og".toList rfl rfl (by decide) (by decide)
      (by decide) rfl
  · exact key ⟨"cat", 4, "meow"⟩ 'c' "at".toList rfl rfl (by decide) (by decide)
      (by decide) rfl
  · exact key ⟨"elephant", 4, "pawoo"⟩ 'e' "lephant".toList rfl rfl (by decide) (by decide)
      (by decide) rfl
  · exact key ⟨"duck", 2, "quack"⟩ 'd' "uck".toList rfl rfl (by decide) (by decide)
      (by decide) rfl
  · exact key ⟨"snake", 0, "hissss"⟩ 's' "nake".toList rfl rfl (by decide) (by decide)
      (by decide) rfl

/-- C6 at the type `cat`, on the input of two blanks, "cat", a newline and
"dog". -/
theorem operatorExtract_name_roundtrip_witness :
    Kind.cat ∈ types ∧ (∀ x ∈ "  ".toList, isspace x = true) ∧
    ∃ d : Data, data[Kind.cat.toNat]? = some d ∧
      operatorExtract { buf := "  ".toList ++ d.name.toList ++ newline :: "dog".toList,
                        eofbit := false, failbit := false, badbit := false } Kind.max_animals
        = ({ buf := "dog".toList, eofbit := false, failbit := false, badbit := false },
           Kind.cat) ∧
      (operatorExtract { buf := "  ".toList ++ d.name.toList ++ newline :: "dog".toList,
                         eofbit := false, failbit := false, badbit := false }
          Kind.max_animals).1.good = true ∧
      (operatorExtract { buf := "  ".toList ++ d.name.toList, eofbit := false,
                         failbit := false, badbit := false } Kind.max_animals).2 = Kind.cat ∧
      (operatorExtract { buf := "  ".toList ++ d.name.toList, eofbit := false,
                         failbit := false, badbit := false } Kind.max_animals).1.fail = false ∧
      (data.map Data.name).Nodup :=
  ⟨by decide, by decide,
   operatorExtract_name_roundtrip Kind.cat (by decide) "  ".toList "dog".toList
     Kind.max_animals (by decide)⟩

/-- A string that `operator>>` has read through a failed extraction is
empty: when the string read is not empty, `failbit` is not set by the
reading. -/
theorem readInput_failbit (s : IStream) (h : (readInput s).2 ≠ "") :
    (readInput s).1.failbit = false := by
  obtain ⟨buf, e, f, b⟩ := s
  by_cases hg : e = false ∧ f = false ∧ b = false
  · obtain ⟨rfl, rfl, rfl⟩ := hg
    unfold readInput at h ⊢
    cases hdrop : buf.dropWhile isspace with
    | nil =>
      exfalso
      apply h
      simp [ws, IStream.good, hdrop, getline, IStream.setFailbit]
    | cons c rest =>
      have hws : ws { buf := buf, eofbit := false, failbit := false, badbit := false }
          = { buf := c :: rest, eofbit := false, failbit := false, badbit := false } := by
        simp [ws, IStream.good, hdrop]
      rw [hws] at h ⊢
      cases hnl : (c :: rest).dropWhile (fun x => x ≠ newline) with
      | nil =>
        by_cases hline : (c :: rest).takeWhile (fun x => x ≠ newline) = []
        · exfalso
          apply h
          simp only [getline, IStream.good, Bool.not_false, Bool.and_self, if_true, hnl,
            hline]
        · simp only [getline, IStream.good, Bool.not_false, Bool.and_self, if_true, hnl,
            hline, if_false]
      | cons x xs =>
        simp only [getline, IStream.good, Bool.not_false, Bool.and_self, if_true, hnl]
  · exfalso
    apply h
    have hng : (ws { buf := buf, eofbit := e, failbit := f, badbit := b }).good = false := by
      cases e <;> cases f <;> cases b <;> simp_all [ws, IStream.good, IStream.setFailbit]
    simp [readInput, getline, hng]

theorem findName_eq_none_iff (input : String) (ds : List Data) :
    ∀ index : Nat, findName input ds index = none ↔ input ∉ ds.map Data.name := by
  induction ds with
  | nil => intro index; simp [findName]
  | cons d rest ih =>
    intro index
    by_cases h : input = d.name
    · simp [findName, h]
    · simp [findName, h, ih (index + 1)]

/-- C7: with `input` the string that `operator>>` has read from the stream,
if `input` equals none of the names in `Animal::data` then `failbit` is set
and the target variable keeps its value; and `failbit` is set afterwards
only if `input` equals none of the names. -/
theorem operatorExtract_failbit_iff (s : IStream) (animal : Kind) :
    ((readInput s).2 ∉ data.map Data.name →
        (operatorExtract s animal).1.failbit = true ∧ (operatorExtract s animal).2 = animal) ∧
      ((operatorExtract s animal).1.failbit = true →
        (readInput s).2 ∉ data.map Data.name) := by
  constructor
  · intro h
    have hnone := (findName_eq_none_iff (readInput s).2 data 0).2 h
    simp [operatorExtract, hnone, IStream.setFailbit]
  · intro hfail hmem
    have hne : (readInput s).2 ≠ "" := by
      intro he
      rw [he] at hmem
      exact absurd hmem (by decide)
    have hok := readInput_failbit s hne
    cases hfind : findName (readInput s).2 data 0 with
    | none => exact (findName_eq_none_iff _ data 0).1 hfind hmem
    | some index =>
      simp only [operatorExtract, hfind] at hfail
      rw [hok] at hfail
      exact Bool.noConfusion hfail

/-- C7 on the input "cow", a newline, "cat" with the target holding `dog`:
the line read is no name, `failbit` is set and the target still holds
`dog`; and on the input "cat" nothing fails. -/
theorem operatorExtract_failbit_iff_witness :
    (readInput (IStream.ofString "cow\ncat")).2 ∉ data.map Data.name ∧
      (operatorExtract (IStream.ofString "cow\ncat") Kind.dog).1.failbit = true ∧
      (operatorExtract (IStream.ofString "cow\ncat") Kind.dog).2 = Kind.dog ∧
      (operatorExtract (IStream.ofString "cat\n") Kind.dog).1.failbit = false :=
  have h : (readInput (IStream.ofString "cow\ncat")).2 ∉ data.map Data.name := by decide
  ⟨h, ((operatorExtract_failbit_iff (IStream.ofString "cow\ncat") Kind.dog).1 h).1,
   ((operatorExtract_failbit_iff (IStream.ofString "cow\ncat") Kind.dog).1 h).2, by decide⟩

end Animal

/-! ### getQuantityPhrase -/

namespace QuantityPhrase

/-- Away from 0 the phrases are the expected ones: "negative" below 0,
"single", "a couple of", "a few" for 1, 2, 3, and "many" above 3. -/
theorem getQuantityPhrase_of_ne_zero (quantity : Int) :
    (quantity < 0 → getQuantityPhrase quantity = "negative") ∧
      (quantity = 1 → getQuantityPhrase quantity = "single") ∧
      (quantity = 2 → getQuantityPhrase quantity = "a couple of") ∧
      (quantity = 3 → getQuantityPhrase quantity = "a few") ∧
      (quantity > 3 → getQuantityPhrase quantity = "many") := by
  refine ⟨?_, ?_, ?_, ?_, ?_⟩
  · intro h
    have h0 : quantity ≤ 0 := by omega
    simp [getQuantityPhrase, h0]
  · rintro rfl; decide
  · rintro rfl; decide
  · rintro rfl; decide
  · intro h
    have h0 : ¬ quantity ≤ 0 := by omega
    have h1 : ¬ quantity = 0 := by omega
    have h2 : ¬ quantity = 1 := by omega
    have h3 : ¬ quantity = 2 := by omega
    have h4 : ¬ quantity = 3 := by omega
    simp [getQuantityPhrase, h0, h1, h2, h3, h4, h]

/-- The first test `quantity <= 0` takes every `quantity` that the second
test `quantity == 0` could take: the branch that returns "no" is dead, and
so is the last one. -/
theorem getQuantityPhrase_ne_no (quantity : Int) :
    getQuantityPhrase quantity ≠ "no" ∧ getQuantityPhrase quantity ≠ "unknown quantity" := by
  unfold getQuantityPhrase
  by_cases h0 : quantity ≤ 0
  · simp only [h0, if_true]; decide
  · have h0z : ¬ quantity = 0 := by omega
    simp only [h0, h0z, if_false]
    by_cases h1 : quantity = 1
    · simp only [h1, if_true]; decide
    · by_cases h2 : quantity = 2
      · simp only [h1, h2, if_true, if_false]; decide
      · by_cases h3 : quantity = 3
        · simp only [h1, h2, h3, if_true, if_false]; decide
        · have h4 : quantity > 3 := by omega
          simp only [h1, h2, h3, h4, if_true, if_false]; decide

/-- C11 (defect): `getQuantityPhrase(0)` is "negative", not the "no" that
the claim and the branch `else if (quantity == 0)` of the source call for. -/
theorem getQuantityPhrase_zero_is_negative :
    getQuantityPhrase 0 = "negative" ∧ getQuantityPhrase 0 ≠ "no" := by
  decide

end QuantityPhrase

/-! ### File -/

namespace FileRaii

/-- The sample program evaluated: 9 is closed by the move assignment, 7 by
the destructor of the object at 2, and the two moved-from objects close
nothing. -/
theorem run_sampleOps :
    (run World.init sampleOps).map (fun w => (w.opened, w.closed, w.objs 0, w.objs 1, w.objs 2))
      = some ([7, 9], [9, 7], none, none, none) := by
  decide

theorem singleOwner_init : SingleOwner World.init := by
  refine ⟨?_, ?_, ?_⟩
  · intro a b h ha; simp [holds, World.init] at ha
  · intro a h ha; simp [holds, World.init] at ha
  · intro h _; rfl

/-- Changing an object that holds no handle into another that holds none
(or ending or starting the life of such an object) keeps single ownership. -/
theorem singleOwner_idle (w : World) (a : Nat) (x : Option File) (hw : SingleOwner w)
    (hold : ∀ h, ¬ holds w a h) (hx : ∀ h, x ≠ some { f := some h }) :
    SingleOwner { w with objs := Function.update w.objs a x } := by
  obtain ⟨i1, i2, i3⟩ := hw
  have key : ∀ b h, Function.update w.objs a x b = some { f := some h } ↔ holds w b h := by
    intro b h
    unfold holds
    by_cases hb : b = a
    · subst hb
      simp only [Function.update_same]
      exact ⟨fun e => absurd e (hx h), fun e => absurd e (hold h)⟩
    · simp only [Function.update_noteq hb]
  refine ⟨?_, ?_, ?_⟩
  · intro b c h hb hc
    exact i1 b c h ((key b h).1 hb) ((key c h).1 hc)
  · intro b h hb
    exact i2 b h ((key b h).1 hb)
  · intro h hno
    exact i3 h (fun b hb => hno b ((key b h).2 hb))

/-- Closing the handle that the object at `a` holds, while the object gives
it up, keeps single ownership. -/
theorem singleOwner_release (w : World) (a : Nat) (h : Handle) (x : Option File)
    (hw : SingleOwner w) (ha : holds w a h) (hx : ∀ k, x ≠ some { f := some k }) :
    SingleOwner { objs := Function.update w.objs a x, opened := w.opened,
                  closed := w.closed ++ [h] } := by
  obtain ⟨i1, i2, i3⟩ := hw
  have key : ∀ b k, Function.update w.objs a x b = some { f := some k }
      ↔ (b ≠ a ∧ holds w b k) := by
    intro b k
    unfold holds
    by_cases hb : b = a
    · subst hb
      simp only [Function.update_same]
      exact ⟨fun e => absurd e (hx k), fun e => absurd rfl e.1⟩
    · simp only [Function.update_noteq hb]
      exact ⟨fun e => ⟨hb, e⟩, fun e => e.2⟩
  refine ⟨?_, ?_, ?_⟩
  · intro b c k hb hc
    exact i1 b c k ((key b k).1 hb).2 ((key c k).1 hc).2
  · intro b k hb
    obtain ⟨hne, hbk⟩ := (key b k).1 hb
    have hkh : k ≠ h := fun e => hne (i1 b a h (e ▸ hbk) ha)
    have := i2 b k hbk
    simp only [List.count_append, List.count_singleton]
    have hd : (h == k) = false := by simpa using fun e : h = k => hkh e.symm
    simp [hd, this]
  · intro k hno
    simp only [List.count_append, List.count_singleton]
    by_cases hkh : k = h
    · subst hkh
      have := i2 a k ha
      simp [this]
    · have hd : (h == k) = false := by simpa using fun e : h = k => hkh e.symm
      have hnone : ∀ b, ¬ holds w b k := by
        intro b hb
        by_cases hba : b = a
        · subst hba
          unfold holds at hb ha
          rw [hb] at ha
          simp only [Option.some.injEq, File.mk.injEq] at ha
          exact hkh ha
        · exact hno b ((key b k).2 ⟨hba, hb⟩)
      simp [hd, i3 k hnone]

/-- Opening a handle that is not open into an object that holds none keeps
single ownership. -/
theorem singleOwner_acquire (w : World) (a : Nat) (h : Handle) (hw : SingleOwner w)
    (hold : ∀ k, ¬ holds w a k) (hfresh : w.opened.count h = w.closed.count h) :
    SingleOwner { objs := Function.update w.objs a (some { f := some h }),
                  opened := w.opened ++ [h], closed := w.closed } := by
  obtain ⟨i1, i2, i3⟩ := hw
  have hnoh : ∀ b, ¬ holds w b h := by
    intro b hb
    have := i2 b h hb
    omega
  have key : ∀ b k, Function.update w.objs a (some { f := some h }) b = some { f := some k }
      ↔ ((b = a ∧ k = h) ∨ (b ≠ a ∧ holds w b k)) := by
    intro b k
    unfold holds
    by_cases hb : b = a
    · subst hb
      simp [Function.update_same, eq_comm]
    · simp only [Function.update_noteq hb]
      constructor
      · intro e; exact Or.inr ⟨hb, e⟩
      · rintro (⟨e, _⟩ | ⟨_, e⟩)
        · exact absurd e hb
        · exact e
  refine ⟨?_, ?_, ?_⟩
  · intro b c k hb hc
    rcases (key b k).1 hb with ⟨rfl, rfl⟩ | ⟨hbn, hbk⟩
    · rcases (key c k).1 hc with ⟨rfl, _⟩ | ⟨_, hck⟩
      · rfl
      · exact absurd hck (hnoh c)
    · rcases (key c k).1 hc with ⟨rfl, rfl⟩ | ⟨_, hck⟩
      · exact absurd hbk (hnoh b)
      · exact i1 b c k hbk hck
  · intro b k hb
    simp only [List.count_append, List.count_singleton]
    rcases (key b k).1 hb with ⟨rfl, rfl⟩ | ⟨_, hbk⟩
    · simp [hfresh]
    · have hkh : k ≠ h := fun e => hnoh b (e ▸ hbk)
      have hd : (h == k) = false := by simpa using fun e : h = k => hkh e.symm
      simp [hd, i2 b k hbk]
  · intro k hno
    have hkh : k ≠ h := fun e => hno a ((key a k).2 (Or.inl ⟨rfl, e⟩))
    have hd : (h == k) = false := by simpa using fun e : h = k => hkh e.symm
    have hnone : ∀ b, ¬ holds w b k := by
      intro b hb
      by_cases hba : b = a
      · subst hba; exact hold k hb
      · exact hno b ((key b k).2 (Or.inr ⟨hba, hb⟩))
    simp only [List.count_append, List.count_singleton]
    simp [hd, i3 k hnone]

/-- Handing what the object at `o` holds over to the object at `self`, which
holds no handle, keeps single ownership. -/
theorem singleOwner_transfer (w : World) (self o : Nat) (src : File) (hw : SingleOwner w)
    (hne : self ≠ o) (hself : ∀ k, ¬ holds w self k) (ho : w.objs o = some src) :
    SingleOwner (setField (setField w self src.f) o none) := by
  obtain ⟨i1, i2, i3⟩ := hw
  have hsrc : ∀ k, src.f = some k ↔ holds w o k := by
    intro k
    unfold holds
    rw [ho]
    obtain ⟨v⟩ := src
    simp
  have key : ∀ b k,
      Function.update (Function.update w.objs self (some { f := src.f })) o
          (some { f := none }) b = some { f := some k }
        ↔ ((b = self ∧ holds w o k) ∨ (b ≠ self ∧ b ≠ o ∧ holds w b k)) := by
    intro b k
    unfold holds
    by_cases hbo : b = o
    · subst hbo
      simp only [Function.update_same]
      constructor
      · intro e; simp at e
      · rintro (⟨e, _⟩ | ⟨_, e, _⟩)
        · exact absurd e.symm hne
        · exact absurd rfl e
    · by_cases hbs : b = self
      · subst hbs
        rw [Function.update_noteq hbo, Function.update_same]
        constructor
        · intro e
          exact Or.inl ⟨rfl, (hsrc k).1 (by simpa using e)⟩
        · rintro (⟨_, e⟩ | ⟨e, _⟩)
          · simpa using (hsrc k).2 e
          · exact absurd rfl e
      · simp only [Function.update_noteq hbo, Function.update_noteq hbs]
        constructor
        · intro e; exact Or.inr ⟨hbs, hbo, e⟩
        · rintro (⟨e, _⟩ | ⟨_, _, e⟩)
          · exact absurd e hbs
          · exact e
  refine ⟨?_, ?_, ?_⟩
  · intro b c k hb hc
    rcases (key b k).1 hb with ⟨rfl, hbk⟩ | ⟨_, hbo, hbk⟩
    · rcases (key c k).1 hc with ⟨rfl, _⟩ | ⟨_, hco, hck⟩
      · rfl
      · exact absurd (i1 c o k hck hbk) hco
    · rcases (key c k).1 hc with ⟨rfl, hck⟩ | ⟨_, _, hck⟩
      · exact absurd (i1 b o k hbk hck) hbo
      · exact i1 b c k hbk hck
  · intro b k hb
    rcases (key b k).1 hb with ⟨_, hbk⟩ | ⟨_, _, hbk⟩
    · exact i2 o k hbk
    · exact i2 b k hbk
  · intro k hno
    apply i3 k
    intro b hb
    by_cases hbo : b = o
    · subst hbo
      exact hno self ((key self k).2 (Or.inl ⟨rfl, hb⟩))
    · by_cases hbs : b = self
      · subst hbs; exact hself k hb
      · exact hno b ((key b k).2 (Or.inr ⟨hbs, hbo, hb⟩))

theorem construct_singleOwner (w w1 : World) (self : Nat) (r : Option Handle)
    (hw : SingleOwner w) (h : construct w self r = some w1) : SingleOwner w1 := by
  unfold construct at h
  by_cases hfree : w.objs self = none
  · simp only [hfree, ne_eq, not_true_eq_false, if_false] at h
    cases r with
    | none =>
      simp only [Option.some.injEq] at h
      subst h
      exact hw
    | some k =>
      by_cases hk : w.opened.count k = w.closed.count k
      · simp only [hk, if_true, Option.some.injEq] at h
        subst h
        exact singleOwner_acquire w self k hw (fun j hj => by simp [holds, hfree] at hj) hk
      · simp [hk] at h
  · simp [hfree] at h

theorem destruct_singleOwner (w w1 : World) (self : Nat)
    (hw : SingleOwner w) (h : destruct w self = some w1) : SingleOwner w1 := by
  unfold destruct at h
  cases hobj : w.objs self with
  | none => simp [hobj] at h
  | some obj =>
    obtain ⟨v⟩ := obj
    cases v with
    | none =>
      simp only [hobj, Option.some.injEq] at h
      subst h
      exact singleOwner_idle w self none hw (fun k hk => by simp [holds, hobj] at hk)
        (fun k => by simp)
    | some k =>
      simp only [hobj, Option.some.injEq] at h
      subst h
      exact singleOwner_release w self k none hw hobj (fun j => by simp)

theorem moveConstruct_singleOwner (w w1 : World) (self o : Nat)
    (hw : SingleOwner w) (h : moveConstruct w self o = some w1) : SingleOwner w1 := by
  unfold moveConstruct at h
  by_cases hfree : w.objs self = none
  · simp only [hfree, ne_eq, not_true_eq_false, if_false] at h
    cases hsrc : w.objs o with
    | none => simp [hsrc] at h
    | some src =>
      simp only [hsrc, Option.some.injEq] at h
      subst h
      have hne : self ≠ o := by
        intro e
        rw [e, hsrc] at hfree
        exact Option.noConfusion hfree
      exact singleOwner_transfer w self o src hw hne
        (fun k hk => by simp [holds, hfree] at hk) hsrc
  · simp [hfree] at h

theorem moveAssign_singleOwner (w w1 : World) (self o : Nat)
    (hw : SingleOwner w) (h : moveAssign w self o = some w1) : SingleOwner w1 := by
  unfold moveAssign at h
  cases hdst : w.objs self with
  | none => simp [hdst] at h
  | some dst =>
    cases hsrc : w.objs o with
    | none => simp [hdst, hsrc] at h
    | some src =>
      by_cases hne : self = o
      · simp only [hdst, hsrc, hne, ne_eq, not_true_eq_false, if_false,
          Option.some.injEq] at h
        subst h
        exact hw
      · obtain ⟨v⟩ := dst
        cases v with
        | none =>
          simp only [hdst, hsrc, hne, ne_eq, not_false_eq_true, if_true,
            Option.some.injEq] at h
          subst h
          exact singleOwner_transfer w self o src hw hne
            (fun k hk => by simp [holds, hdst] at hk) hsrc
        | some k =>
          simp only [hdst, hsrc, hne, ne_eq, not_false_eq_true, if_true,
            Option.some.injEq] at h
          subst h
          have hrel := singleOwner_release w self k (some { f := none }) hw hdst
            (fun j => by simp)
          have hsrc2 : Function.update w.objs self (some { f := none }) o = some src := by
            rw [Function.update_noteq (Ne.symm hne)]
            exact hsrc
          have htr := singleOwner_transfer _ self o src hrel hne
            (fun j hj => by simp [holds] at hj) hsrc2
          have heq : setField (setField (fclose w k) self src.f) o none
              = setField (setField
                  { objs := Function.update w.objs self (some { f := none }),
                    opened := w.opened, closed := w.closed ++ [k] } self src.f) o none := by
            simp [setField, fclose, Function.update_idem]
          rw [heq]
          exact htr

theorem step_singleOwner (w w1 : World) (op : Op) (hw : SingleOwner w)
    (h : step w op = some w1) : SingleOwner w1 := by
  cases op with
  | construct self r => exact construct_singleOwner w w1 self r hw h
  | moveConstruct self o => exact moveConstruct_singleOwner w w1 self o hw h
  | moveAssign self o => exact moveAssign_singleOwner w w1 self o hw h
  | destruct self => exact destruct_singleOwner w w1 self hw h

theorem run_singleOwner (ops : List Op) :
    ∀ w w1 : World, SingleOwner w → run w ops = some w1 → SingleOwner w1 := by
  induction ops with
  | nil =>
    intro w w1 hw h
    simp only [run, Option.some.injEq] at h
    subst h
    exact hw
  | cons op ops ih =>
    intro w w1 hw h
    unfold run at h
    cases hs : step w op with
    | none => simp [hs] at h
    | some w2 =>
      simp only [hs] at h
      exact ih w2 w1 (step_singleOwner w w2 op hw hs) h

/-- Under single ownership no handle was closed more often than opened, and
once no object is alive the handles closed are the handles opened, each as
often as it was opened. -/
theorem singleOwner_closed (w : World) (hw : SingleOwner w) :
    (∀ h, w.closed.count h ≤ w.opened.count h) ∧
      ((∀ a, w.objs a = none) → w.closed.Perm w.opened) := by
  obtain ⟨_, i2, i3⟩ := hw
  constructor
  · intro h
    by_cases hex : ∃ a, holds w a h
    · obtain ⟨a, ha⟩ := hex
      have := i2 a h ha
      omega
    · have := i3 h (fun a ha => hex ⟨a, ha⟩)
      omega
  · intro hdead
    rw [List.perm_iff_count]
    intro h
    have := i3 h (fun a ha => by simp [holds, hdead a] at ha)
    omega

theorem moveConstruct_effect (w : World) (self o : Nat) (src : File)
    (hfree : w.objs self = none) (ho : w.objs o = some src) :
    ∃ w1, moveConstruct w self o = some w1 ∧ get w1 self = some src.f ∧
      get w1 o = some none ∧ w1.closed = w.closed ∧ w1.opened = w.opened ∧
      ∀ a, a ≠ self → a ≠ o → w1.objs a = w.objs a := by
  have hne : self ≠ o := by
    intro e
    rw [e, ho] at hfree
    exact Option.noConfusion hfree
  refine ⟨setField (setField w self src.f) o none, ?_, ?_, ?_, rfl, rfl, ?_⟩
  · simp [moveConstruct, hfree, ho]
  · simp [get, setField, Function.update_noteq hne]
  · simp [get, setField]
  · intro a ha1 ha2
    simp [setField, Function.update_noteq ha1, Function.update_noteq ha2]

theorem moveAssign_effect (w : World) (self o : Nat) (dst src : File) (hne : self ≠ o)
    (hself : w.objs self = some dst) (ho : w.objs o = some src) :
    ∃ w1, moveAssign w self o = some w1 ∧ get w1 self = some src.f ∧
      get w1 o = some none ∧ w1.closed = w.closed ++ dst.f.toList ∧
      w1.opened = w.opened ∧ ∀ a, a ≠ self → a ≠ o → w1.objs a = w.objs a := by
  obtain ⟨v⟩ := dst
  cases v with
  | none =>
    refine ⟨setField (setField w self src.f) o none, ?_, ?_, ?_, ?_, rfl, ?_⟩
    · simp [moveAssign, hself, ho, hne]
    · simp [get, setField, Function.update_noteq hne]
    · simp [get, setField]
    · simp [setField]
    · intro a ha1 ha2
      simp [setField, Function.update_noteq ha1, Function.update_noteq ha2]
  | some k =>
    refine ⟨setField (setField (fclose w k) self src.f) o none, ?_, ?_, ?_, ?_, rfl, ?_⟩
    · simp [moveAssign, hself, ho, hne]
    · simp [get, setField, Function.update_noteq hne]
    · simp [get, setField]
    · simp [setField, fclose]
    · intro a ha1 ha2
      simp [setField, fclose, Function.update_noteq ha1, Function.update_noteq ha2]

theorem destruct_effect (w : World) (self : Nat) (obj : File) (hself : w.objs self = some obj) :
    ∃ w1, destruct w self = some w1 ∧ w1.closed = w.closed ++ obj.f.toList ∧
      w1.opened = w.opened ∧ w1.objs self = none ∧
      ∀ a, a ≠ self → w1.objs a = w.objs a := by
  obtain ⟨v⟩ := obj
  cases v with
  | none =>
    refine ⟨{ w with objs := Function.update w.objs self none }, ?_, ?_, rfl, ?_, ?_⟩
    · simp [destruct, hself]
    · simp
    · simp
    · intro a ha
      simp [Function.update_noteq ha]
  | some k =>
    refine ⟨{ fclose w k with objs := Function.update w.objs self none }, ?_, ?_, rfl, ?_, ?_⟩
    · simp [destruct, hself]
    · simp [fclose]
    · simp
    · intro a ha
      simp [Function.update_noteq ha]

/-- C12: move construction and move assignment (between two objects) leave
the destination with the handle the source held and the source with null;
move assignment first closes the handle the destination held, if that was
not null, and closes nothing else; move assignment of an object to itself
changes nothing; the destructor closes the handle of its object if that is
not null and closes nothing otherwise.  Hence after any sequence of
constructions, moves and destructions from program start, every handle has
at most one owner and was never closed more often than opened, and once all
objects are destroyed the handles closed are exactly the handles opened,
each closed once per opening. -/
theorem file_single_owner :
    (∀ (w : World) (self o : Nat) (src : File), w.objs self = none → w.objs o = some src →
      ∃ w1, moveConstruct w self o = some w1 ∧ get w1 self = some src.f ∧
        get w1 o = some none ∧ w1.closed = w.closed ∧ w1.opened = w.opened ∧
        ∀ a, a ≠ self → a ≠ o → w1.objs a = w.objs a) ∧
    (∀ (w : World) (self o : Nat) (dst src : File), self ≠ o → w.objs self = some dst →
      w.objs o = some src →
      ∃ w1, moveAssign w self o = some w1 ∧ get w1 self = some src.f ∧
        get w1 o = some none ∧ w1.closed = w.closed ++ dst.f.toList ∧
        w1.opened = w.opened ∧ ∀ a, a ≠ self → a ≠ o → w1.objs a = w.objs a) ∧
    (∀ (w : World) (self : Nat) (obj : File), w.objs self = some obj →
      moveAssign w self self = some w) ∧
    (∀ (w : World) (self : Nat) (obj : File), w.objs self = some obj →
      ∃ w1, destruct w self = some w1 ∧ w1.closed = w.closed ++ obj.f.toList ∧
        w1.opened = w.opened ∧ w1.objs self = none ∧
        ∀ a, a ≠ self → w1.objs a = w.objs a) ∧
    (∀ (ops : List Op) (w : World), run World.init ops = some w →
      (∀ a b h, holds w a h → holds w b h → a = b) ∧
      (∀ h, w.closed.count h ≤ w.opened.count h) ∧
      ((∀ a, w.objs a = none) → w.closed.Perm w.opened)) := by
  refine ⟨moveConstruct_effect, moveAssign_effect, ?_, destruct_effect, ?_⟩
  · intro w self obj hself
    simp [moveAssign, hself]
  · intro ops w hrun
    have hw := run_singleOwner ops World.init w singleOwner_init hrun
    exact ⟨hw.1, (singleOwner_closed w hw).1, (singleOwner_closed w hw).2⟩

/-- C12 on the sample program: the file opened at 0 is moved to 1 and on to
2, the file opened at 2 is closed by the move assignment, the self-move
changes nothing, and when the three objects are destroyed the handles
closed, 9 and 7, are the handles opened, 7 and 9. -/
theorem file_single_owner_witness :
    ∃ w, run World.init sampleOps = some w ∧ (∀ a, w.objs a = none) ∧
      w.opened = [7, 9] ∧ w.closed = [9, 7] ∧
      (∀ a b h, holds w a h → holds w b h → a = b) ∧
      (∀ h, w.closed.count h ≤ w.opened.count h) ∧ w.closed.Perm w.opened := by
  have hlogs : (run World.init sampleOps).map (fun v => (v.opened, v.closed))
      = some ([7, 9], [9, 7]) := by decide
  cases hrun : run World.init sampleOps with
  | none =>
    rw [hrun] at hlogs
    exact Option.noConfusion hlogs
  | some w =>
    have hobjs : ∀ a, (run World.init sampleOps).map (fun v => v.objs a) = some none := by
      intro a
      by_cases h0 : a = 0
      · subst h0; decide
      · by_cases h1 : a = 1
        · subst h1; decide
        · by_cases h2 : a = 2
          · subst h2; decide
          · simp [sampleOps, run, step, construct, moveConstruct, moveAssign, destruct,
              World.init, setField, fclose, Function.update_apply, h0, h1, h2]
    rw [hrun] at hlogs hobjs
    simp only [Option.map_some', Option.some.injEq, Prod.mk.injEq] at hlogs hobjs
    have hall := file_single_owner.2.2.2.2 sampleOps w hrun
    exact ⟨w, rfl, hobjs, hlogs.1, hlogs.2, hall.1, hall.2.1, hall.2.2 hobjs⟩

end FileRaii
